import Mathlib

/-!
# Verification of the portfolio accounting engine

A shallow embedding of the accounting core of the `dabberdave-profits`
repository (`src/components/PnLTracker.tsx`): the position resolver that
folds buy/sell transactions into per-asset positions with average-cost
accounting, the daily PnL snapshot sampler, and the transaction-entry
operation.  Real-number arithmetic of the source is modelled over `ℚ`.
-/

namespace PnL

/-- Side of a transaction: `"buy"` or `"sell"` in the source. -/
inductive TxType where
  | buy : TxType
  | sell : TxType
deriving Repr, DecidableEq

/-- The `Transaction` record of `PnLTracker.tsx`: id, token symbol, side,
amount, price per token, total value and timestamp. -/
structure Transaction where
  id : String
  tokenSymbol : String
  type : TxType
  amount : ℚ
  pricePerToken : ℚ
  totalValue : ℚ
  timestamp : ℕ
deriving Repr, DecidableEq

/-- The `TokenPosition` record of `PnLTracker.tsx`. -/
structure TokenPosition where
  symbol : String
  totalAmount : ℚ
  avgCostBasis : ℚ
  currentPrice : ℚ
  totalInvested : ℚ
  currentValue : ℚ
  pnl : ℚ
  pnlPercentage : ℚ
  transactions : List Transaction
deriving Repr, DecidableEq

/-- `toUpperCase()`: character-wise ASCII uppercasing of a symbol string
(structural form of `String.toUpper`, which maps `Char.toUpper` over the
characters). -/
def upperCase (s : String) : String :=
  ⟨s.data.map Char.toUpper⟩

/-- `tokenPrices[symbol] || 0`: look a symbol up in the price map, 0 when
absent (a present price of 0 is also falsy in JavaScript and yields 0,
the same value). -/
def lookupPrice (prices : List (String × ℚ)) (s : String) : ℚ :=
  match prices with
  | [] => 0
  | (k, v) :: rest => if k = s then v else lookupPrice rest s

/-- The fresh position created when a symbol is first seen in the fold
(the `if (!positionMap[symbol])` initialiser). -/
def initPosition (symbol : String) (prices : List (String × ℚ)) : TokenPosition :=
  { symbol := symbol
    totalAmount := 0
    avgCostBasis := 0
    currentPrice := lookupPrice prices symbol
    totalInvested := 0
    currentValue := 0
    pnl := 0
    pnlPercentage := 0
    transactions := [] }

/-- One step of the position fold: push the transaction, then apply the
buy branch (`totalInvested += totalValue`, `totalAmount += amount`,
`avgCostBasis := newTotalAmount > 0 ? newTotalInvested / newTotalAmount : 0`)
or the sell branch (`totalAmount -= amount`,
`totalInvested -= amount * avgCostBasis`). -/
def applyTx (pos : TokenPosition) (t : Transaction) : TokenPosition :=
  let pos := { pos with transactions := pos.transactions ++ [t] }
  match t.type with
  | TxType.buy =>
    let newTotalInvested := pos.totalInvested + t.totalValue
    let newTotalAmount := pos.totalAmount + t.amount
    { pos with
        totalInvested := newTotalInvested
        totalAmount := newTotalAmount
        avgCostBasis :=
          if 0 < newTotalAmount then newTotalInvested / newTotalAmount else 0 }
  | TxType.sell =>
    { pos with
        totalAmount := pos.totalAmount - t.amount
        totalInvested := pos.totalInvested - t.amount * pos.avgCostBasis }

/-- Apply a sequence of transactions to one position (the per-symbol part
of the fold). -/
def applySeq (pos : TokenPosition) (ts : List Transaction) : TokenPosition :=
  ts.foldl applyTx pos

/-- First-match lookup in the position map (JavaScript object access
`positionMap[symbol]`; keys are unique in the map, see `foldTransactions`). -/
def getPos (m : List (String × TokenPosition)) (s : String) : Option TokenPosition :=
  match m with
  | [] => none
  | (k, q) :: rest => if k = s then some q else getPos rest s

/-- Write a key in the position map: an existing key keeps its place, a
new key is appended, matching JavaScript object insertion-order semantics. -/
def setPos (m : List (String × TokenPosition)) (s : String) (p : TokenPosition) :
    List (String × TokenPosition) :=
  match m with
  | [] => [(s, p)]
  | (k, q) :: rest => if k = s then (s, p) :: rest else (k, q) :: setPos rest s p

/-- One iteration of `transactions.forEach`: uppercase the symbol, create
the position if missing, apply the transaction. -/
def stepTx (prices : List (String × ℚ)) (m : List (String × TokenPosition))
    (t : Transaction) : List (String × TokenPosition) :=
  let symbol := upperCase t.tokenSymbol
  let pos :=
    match getPos m symbol with
    | some p => p
    | none => initPosition symbol prices
  setPos m symbol (applyTx pos t)

/-- The whole `transactions.forEach` fold producing `positionMap`. -/
def foldTransactions (prices : List (String × ℚ)) (txs : List Transaction) :
    List (String × TokenPosition) :=
  txs.foldl (stepTx prices) []

/-- The derived-fields pass (`Object.values(positionMap).forEach`):
`currentPrice = tokenPrices[symbol] || 0`, `currentValue = held * price`,
`pnl = currentValue - invested`,
`pnlPercentage = invested > 0 ? pnl / invested * 100 : 0`. -/
def finalizePosition (prices : List (String × ℚ)) (pos : TokenPosition) : TokenPosition :=
  let currentPrice := lookupPrice prices pos.symbol
  let currentValue := pos.totalAmount * currentPrice
  let pnl := currentValue - pos.totalInvested
  { pos with
      currentPrice := currentPrice
      currentValue := currentValue
      pnl := pnl
      pnlPercentage :=
        if 0 < pos.totalInvested then pnl / pos.totalInvested * 100 else 0 }

/-- The positions `useEffect` end to end:
`setPositions(Object.values(positionMap).filter(p => p.totalAmount > 0))`
after the fold and the derived-fields pass. -/
def resolvePositions (prices : List (String × ℚ)) (txs : List Transaction) :
    List TokenPosition :=
  (((foldTransactions prices txs).map (fun kv => finalizePosition prices kv.2)).filter
    (fun p => decide (0 < p.totalAmount)))

/-- `getTotalPortfolioValue`: sum of `currentValue` over the resolved
positions. -/
def getTotalPortfolioValue (positions : List TokenPosition) : ℚ :=
  positions.foldl (fun total p => total + p.currentValue) 0

/-- The `DailyPnL` record of `PnLTracker.tsx`. -/
structure DailyPnL where
  date : String
  portfolioValue : ℚ
  dailyChange : ℚ
  dailyChangePercentage : ℚ
deriving Repr, DecidableEq

/-- A snapshot entry as both branches of the daily PnL effect build it:
`dailyChange = currentValue - previousValue`,
`dailyChangePercentage = previousValue > 0 ? ... * 100 : 0`. -/
def mkDailyEntry (today : String) (currentValue previousValue : ℚ) : DailyPnL :=
  { date := today
    portfolioValue := currentValue
    dailyChange := currentValue - previousValue
    dailyChangePercentage :=
      if 0 < previousValue then (currentValue - previousValue) / previousValue * 100
      else 0 }

/-- The previous value used when an entry for today already exists:
`dailyPnLHistory[existingEntryIndex - 1]?.portfolioValue || startBalance`.
At index 0 the `[-1]` access is `undefined` and falls back to the start
balance; a stored value of exactly 0 is falsy and also falls back. -/
def samplePrevValueExisting (hist : List DailyPnL) (startBalance : ℚ) (idx : ℕ) : ℚ :=
  match idx with
  | 0 => startBalance
  | i + 1 =>
    match hist[i]? with
    | none => startBalance
    | some e => if e.portfolioValue = 0 then startBalance else e.portfolioValue

/-- The previous value used when no entry for today exists yet:
`dailyPnLHistory.length > 0 ? dailyPnLHistory[length - 1].portfolioValue
: startBalance` — the last entry's value, or the start balance for an
empty history. -/
def lastValueOrStart (hist : List DailyPnL) (startBalance : ℚ) : ℚ :=
  match hist.getLast? with
  | some e => e.portfolioValue
  | none => startBalance

/-- The daily PnL `useEffect`: return unchanged when the portfolio value is
exactly 0; otherwise overwrite today's entry in place when one exists
(previous value taken by `samplePrevValueExisting`), else append a new
entry whose previous value is `lastValueOrStart`. -/
def sampleDailyPnL (hist : List DailyPnL) (startBalance currentValue : ℚ)
    (today : String) : List DailyPnL :=
  if currentValue = 0 then hist
  else
    match hist.findIdx? (fun e => e.date == today) with
    | some idx =>
      hist.set idx (mkDailyEntry today currentValue (samplePrevValueExisting hist startBalance idx))
    | none =>
      hist ++ [mkDailyEntry today currentValue (lastValueOrStart hist startBalance)]

/-- The new-transaction form state (`newTransaction`): the symbol, amount
and price fields are raw strings. -/
structure NewTransactionInput where
  tokenSymbol : String
  type : TxType
  amount : String
  pricePerToken : String
deriving Repr, DecidableEq

/-- Decimal-literal parser modelling JavaScript `parseFloat` on the plain
decimal strings the transaction form produces: an optional leading minus,
a non-empty run of integer digits, then optionally a dot and a run of
fraction digits; trailing non-digit characters are ignored, as
`parseFloat` ignores them.  Strings on which `parseFloat` yields `NaN`
(e.g. no leading digit) map to `none`. -/
def parseDecimal (s : String) : Option ℚ :=
  let cs := s.data
  let neg := match cs with
    | '-' :: _ => true
    | _ => false
  let cs1 := match cs with
    | '-' :: rest => rest
    | _ => cs
  let intPart := cs1.takeWhile Char.isDigit
  let rest := cs1.dropWhile Char.isDigit
  if intPart.isEmpty then none
  else
    let iv : ℕ := intPart.foldl (fun acc c => acc * 10 + (c.toNat - 48)) 0
    let fracPart := match rest with
      | '.' :: tail => tail.takeWhile Char.isDigit
      | _ => []
    let fv : ℕ := fracPart.foldl (fun acc c => acc * 10 + (c.toNat - 48)) 0
    let v : ℚ := (iv : ℚ) + (fv : ℚ) / (10 : ℚ) ^ fracPart.length
    some (if neg then -v else v)

/-- The transaction record `addTransaction` builds once its guard passes:
uppercased symbol, parsed amount and price, `totalValue = amount * price`,
id and timestamp from `Date.now()`. -/
def mkTransactionFromInput (inp : NewTransactionInput) (now : ℕ) : Transaction :=
  let a := (parseDecimal inp.amount).getD 0
  let p := (parseDecimal inp.pricePerToken).getD 0
  { id := toString now
    tokenSymbol := upperCase inp.tokenSymbol
    type := inp.type
    amount := a
    pricePerToken := p
    totalValue := a * p
    timestamp := now }

/-- `addTransaction`: return the ledger unchanged when any of the three
input strings is empty (the only guard in the source,
`if (!tokenSymbol || !amount || !pricePerToken) return`), otherwise append
the built transaction. -/
def addTransaction (txs : List Transaction) (inp : NewTransactionInput)
    (now : ℕ) : List Transaction :=
  if inp.tokenSymbol = "" ∨ inp.amount = "" ∨ inp.pricePerToken = "" then txs
  else txs ++ [mkTransactionFromInput inp now]

/-- Total spent across a transaction list (Σ amount·price). -/
def sumSpent (ts : List Transaction) : ℚ :=
  (ts.map (fun t => t.amount * t.pricePerToken)).sum

/-- Total amount across a transaction list (Σ amount). -/
def sumHeld (ts : List Transaction) : ℚ :=
  (ts.map Transaction.amount).sum

/-- Invariant of the position map maintained by the fold: keys are
distinct and each position records its own key as `symbol`. -/
def MapInv (m : List (String × TokenPosition)) : Prop :=
  (m.map Prod.fst).Nodup ∧ ∀ kq ∈ m, (kq.2 : TokenPosition).symbol = kq.1

/-- The held amount the fold assigns to a symbol after a transaction list
(0 when the symbol never occurs). -/
def heldOf (prices : List (String × ℚ)) (txs : List Transaction) (sym : String) : ℚ :=
  match getPos (foldTransactions prices txs) sym with
  | some p => p.totalAmount
  | none => 0

/-- Scenario A, first buy: 0.5 BTC at 45000 (total value 22500). -/
def txA1 : Transaction :=
  { id := "1", tokenSymbol := "BTC", type := TxType.buy, amount := 1/2,
    pricePerToken := 45000, totalValue := 22500, timestamp := 1 }

/-- Scenario A, second buy: 0.5 BTC at 47000 (total value 23500). -/
def txA2 : Transaction :=
  { id := "2", tokenSymbol := "BTC", type := TxType.buy, amount := 1/2,
    pricePerToken := 47000, totalValue := 23500, timestamp := 2 }

/-- Scenario B, sell: 0.2 BTC at 50000 (the sale price is irrelevant to
the cost basis). -/
def txB3 : Transaction :=
  { id := "3", tokenSymbol := "BTC", type := TxType.sell, amount := 1/5,
    pricePerToken := 50000, totalValue := 10000, timestamp := 3 }

/-- The BTC position after Scenario A. -/
def posA : TokenPosition :=
  applySeq (initPosition "BTC" [("BTC", 45000)]) [txA1, txA2]

/-- Scenario C, buy of 1 ETH at 100. -/
def txC1 : Transaction :=
  { id := "4", tokenSymbol := "ETH", type := TxType.buy, amount := 1,
    pricePerToken := 100, totalValue := 100, timestamp := 4 }

/-- Scenario C, sell of the whole ETH holding. -/
def txC2 : Transaction :=
  { id := "5", tokenSymbol := "ETH", type := TxType.sell, amount := 1,
    pricePerToken := 100, totalValue := 100, timestamp := 5 }

/-- The resolved ETH position after a single buy of 1 ETH at 100 with an
empty price map: current price falls back to 0, so current value is 0 and
the unrealized PnL is −100 (−100%). -/
def posE : TokenPosition :=
  { symbol := "ETH", totalAmount := 1, avgCostBasis := 100, currentPrice := 0,
    totalInvested := 100, currentValue := 0, pnl := -100, pnlPercentage := -100,
    transactions := [txC1] }

/-! ## Basic lemmas about the position fold -/

theorem applyTx_symbol (pos : TokenPosition) (t : Transaction) :
    (applyTx pos t).symbol = pos.symbol := by
  cases h : t.type <;> simp [applyTx, h]

theorem applyTx_buy (pos : TokenPosition) (t : Transaction) (h : t.type = TxType.buy) :
    (applyTx pos t).totalInvested = pos.totalInvested + t.totalValue ∧
    (applyTx pos t).totalAmount = pos.totalAmount + t.amount ∧
    (applyTx pos t).avgCostBasis =
      (if 0 < pos.totalAmount + t.amount then
        (pos.totalInvested + t.totalValue) / (pos.totalAmount + t.amount) else 0) := by
  simp [applyTx, h]

theorem applyTx_sell (pos : TokenPosition) (t : Transaction) (h : t.type = TxType.sell) :
    (applyTx pos t).totalAmount = pos.totalAmount - t.amount ∧
    (applyTx pos t).totalInvested = pos.totalInvested - t.amount * pos.avgCostBasis ∧
    (applyTx pos t).avgCostBasis = pos.avgCostBasis := by
  simp [applyTx, h]

theorem finalizePosition_base (prices : List (String × ℚ)) (pos : TokenPosition) :
    (finalizePosition prices pos).symbol = pos.symbol ∧
    (finalizePosition prices pos).totalAmount = pos.totalAmount ∧
    (finalizePosition prices pos).totalInvested = pos.totalInvested ∧
    (finalizePosition prices pos).avgCostBasis = pos.avgCostBasis := by
  simp [finalizePosition]

theorem getPos_eq_none_iff (m : List (String × TokenPosition)) (s : String) :
    getPos m s = none ↔ s ∉ m.map Prod.fst := by
  induction m with
  | nil => simp [getPos]
  | cons kq rest ih =>
    obtain ⟨k, q⟩ := kq
    by_cases hk : k = s <;> simp [getPos, hk, ih, Ne.symm, eq_comm]

theorem getPos_mem {m : List (String × TokenPosition)} {s : String} {q : TokenPosition}
    (h : getPos m s = some q) : (s, q) ∈ m := by
  induction m with
  | nil => simp [getPos] at h
  | cons kq rest ih =>
    obtain ⟨k, q'⟩ := kq
    by_cases hk : k = s
    · subst hk
      simp [getPos] at h
      simp [h]
    · simp [getPos, hk] at h
      simp [ih h]

theorem setPos_getPos_self (m : List (String × TokenPosition)) (s : String)
    (p : TokenPosition) : getPos (setPos m s p) s = some p := by
  induction m with
  | nil => simp [setPos, getPos]
  | cons kq rest ih =>
    obtain ⟨k, q⟩ := kq
    by_cases hk : k = s <;> simp [setPos, getPos, hk, ih]

theorem setPos_getPos_ne (m : List (String × TokenPosition)) (s s' : String)
    (p : TokenPosition) (h : s' ≠ s) :
    getPos (setPos m s p) s' = getPos m s' := by
  induction m with
  | nil => simp [setPos, getPos, Ne.symm h]
  | cons kq rest ih =>
    obtain ⟨k, q⟩ := kq
    by_cases hk : k = s
    · subst hk
      simp [setPos, getPos, Ne.symm h]
    · by_cases hk' : k = s' <;> simp [setPos, getPos, hk, hk', ih, h]

theorem setPos_keys (m : List (String × TokenPosition)) (s : String) (p : TokenPosition) :
    (setPos m s p).map Prod.fst =
      (if s ∈ m.map Prod.fst then m.map Prod.fst else m.map Prod.fst ++ [s]) := by
  induction m with
  | nil => simp [setPos]
  | cons kq rest ih =>
    obtain ⟨k, q⟩ := kq
    by_cases hk : k = s
    · subst hk
      simp [setPos]
    · have hsk : s ≠ k := fun hh => hk hh.symm
      by_cases hs : s ∈ rest.map Prod.fst <;>
        simp [setPos, hk, hsk, hs, ih]

theorem setPos_mem {m : List (String × TokenPosition)} {s : String} {p : TokenPosition}
    {kq : String × TokenPosition} (h : kq ∈ setPos m s p) : kq ∈ m ∨ kq = (s, p) := by
  induction m with
  | nil => simp [setPos] at h; simp [h]
  | cons kq' rest ih =>
    obtain ⟨k, q⟩ := kq'
    by_cases hk : k = s
    · subst hk
      simp [setPos] at h
      rcases h with h | h
      · right; simp [h]
      · left; simp [h]
    · simp [setPos, hk] at h
      rcases h with h | h
      · left; simp [h]
      · rcases ih h with h' | h'
        · left; simp [h']
        · right; exact h'

theorem stepTx_inv (prices : List (String × ℚ)) (m : List (String × TokenPosition))
    (t : Transaction) (h : MapInv m) : MapInv (stepTx prices m t) := by
  obtain ⟨hnd, hsym⟩ := h
  constructor
  · rw [stepTx, setPos_keys]
    by_cases hs : upperCase t.tokenSymbol ∈ m.map Prod.fst
    · simpa [hs] using hnd
    · simp only [hs, if_false]
      refine List.Nodup.append hnd (List.nodup_singleton _) ?_
      intro x hx hx'
      simp only [List.mem_singleton] at hx'
      subst hx'
      exact hs hx
  · intro kq hkq
    simp only [stepTx] at hkq
    rcases setPos_mem hkq with h' | h'
    · exact hsym kq h'
    · subst h'
      simp only [applyTx_symbol]
      rcases hg : getPos m (upperCase t.tokenSymbol) with _ | p
      · simp [hg, initPosition]
      · simp only [hg]
        exact hsym _ (getPos_mem hg)

theorem foldl_stepTx_inv (prices : List (String × ℚ)) (txs : List Transaction)
    (m : List (String × TokenPosition)) (h : MapInv m) :
    MapInv (txs.foldl (stepTx prices) m) := by
  induction txs generalizing m with
  | nil => exact h
  | cons t ts ih => exact ih _ (stepTx_inv prices m t h)

theorem foldTransactions_inv (prices : List (String × ℚ)) (txs : List Transaction) :
    MapInv (foldTransactions prices txs) :=
  foldl_stepTx_inv prices txs [] (by constructor <;> simp)

theorem mem_getPos {m : List (String × TokenPosition)} {s : String} {q : TokenPosition}
    (hnd : (m.map Prod.fst).Nodup) (h : (s, q) ∈ m) : getPos m s = some q := by
  induction m with
  | nil => simp at h
  | cons kq rest ih =>
    obtain ⟨k, q'⟩ := kq
    rw [List.map_cons, List.nodup_cons] at hnd
    rcases List.mem_cons.mp h with h1 | h1
    · cases h1
      simp [getPos]
    · have hs : s ∈ rest.map Prod.fst := List.mem_map.mpr ⟨(s, q), h1, rfl⟩
      have hks : k ≠ s := fun hh => hnd.1 (hh ▸ hs)
      simp [getPos, hks, ih hnd.2 h1]

theorem mem_resolvePositions_iff (prices : List (String × ℚ)) (txs : List Transaction)
    (p : TokenPosition) :
    p ∈ resolvePositions prices txs ↔
      ((∃ kq ∈ foldTransactions prices txs, p = finalizePosition prices kq.2) ∧
        0 < p.totalAmount) := by
  simp only [resolvePositions, List.mem_filter, List.mem_map, decide_eq_true_eq]
  constructor
  · rintro ⟨⟨kq, hkq, rfl⟩, hpos⟩
    exact ⟨⟨kq, hkq, rfl⟩, hpos⟩
  · rintro ⟨⟨kq, hkq, rfl⟩, hpos⟩
    exact ⟨⟨kq, hkq, rfl⟩, hpos⟩

theorem resolveSymbol_iff_aux (prices : List (String × ℚ)) (txs : List Transaction)
    (sym : String) :
    sym ∈ (resolvePositions prices txs).map TokenPosition.symbol ↔
      ∃ q, getPos (foldTransactions prices txs) sym = some q ∧ 0 < q.totalAmount := by
  obtain ⟨hnd, hsym⟩ := foldTransactions_inv prices txs
  rw [List.mem_map]
  constructor
  · rintro ⟨p, hp, rfl⟩
    obtain ⟨⟨kq, hkq, rfl⟩, hpos⟩ := (mem_resolvePositions_iff prices txs _).mp hp
    refine ⟨kq.2, ?_, ?_⟩
    · have hkey : kq.2.symbol = kq.1 := hsym kq hkq
      have : (finalizePosition prices kq.2).symbol = kq.2.symbol :=
        (finalizePosition_base prices kq.2).1
      rw [this, hkey]
      exact mem_getPos hnd (by rwa [← Prod.mk.eta (p := kq)] at hkq)
    · rwa [(finalizePosition_base prices kq.2).2.1] at hpos
  · rintro ⟨q, hq, hpos⟩
    have hmem : (sym, q) ∈ foldTransactions prices txs := getPos_mem hq
    refine ⟨finalizePosition prices q, ?_, ?_⟩
    · exact (mem_resolvePositions_iff prices txs _).mpr
        ⟨⟨(sym, q), hmem, rfl⟩, by rwa [(finalizePosition_base prices q).2.1]⟩
    · rw [(finalizePosition_base prices q).1]
      exact hsym (sym, q) hmem

theorem sumSpent_cons (t : Transaction) (ts : List Transaction) :
    sumSpent (t :: ts) = t.amount * t.pricePerToken + sumSpent ts := by
  simp [sumSpent]

theorem sumHeld_cons (t : Transaction) (ts : List Transaction) :
    sumHeld (t :: ts) = t.amount + sumHeld ts := by
  simp [sumHeld]

theorem applySeq_buys (ts : List Transaction) (pos : TokenPosition)
    (hb : ∀ t ∈ ts, t.type = TxType.buy ∧ 0 < t.amount ∧
      t.totalValue = t.amount * t.pricePerToken)
    (hA : 0 ≤ pos.totalAmount) :
    (applySeq pos ts).totalInvested = pos.totalInvested + sumSpent ts ∧
    (applySeq pos ts).totalAmount = pos.totalAmount + sumHeld ts ∧
    (ts ≠ [] → (applySeq pos ts).avgCostBasis =
      (pos.totalInvested + sumSpent ts) / (pos.totalAmount + sumHeld ts)) := by
  induction ts generalizing pos with
  | nil => simp [applySeq, sumSpent, sumHeld]
  | cons t ts ih =>
    obtain ⟨hty, hamt, htv⟩ := hb t (List.mem_cons_self t ts)
    have hb' := fun u hu => hb u (List.mem_cons_of_mem t hu)
    obtain ⟨hI, hAmt, hAvg⟩ := applyTx_buy pos t hty
    have hsum : 0 < pos.totalAmount + t.amount := by linarith
    have hA' : 0 ≤ (applyTx pos t).totalAmount := by rw [hAmt]; linarith
    obtain ⟨ih1, ih2, ih3⟩ := ih (applyTx pos t) hb' hA'
    have hseq : applySeq pos (t :: ts) = applySeq (applyTx pos t) ts := by
      simp [applySeq]
    refine ⟨?_, ?_, ?_⟩
    · rw [hseq, ih1, hI, htv, sumSpent_cons]; ring
    · rw [hseq, ih2, hAmt, sumHeld_cons]; ring
    · intro _
      cases ts with
      | nil =>
        rw [hseq]
        simp only [applySeq, List.foldl_nil]
        rw [hAvg, if_pos hsum, htv, sumSpent_cons, sumHeld_cons]
        simp [sumSpent, sumHeld]
      | cons u us =>
        have hne : u :: us ≠ [] := by simp
        rw [hseq, ih3 hne, hI, hAmt, htv]
        simp only [sumSpent_cons, sumHeld_cons]
        ring_nf

theorem foldl_stepTx_single (prices : List (String × ℚ)) (sym : String)
    (ts : List Transaction) (p : TokenPosition)
    (h : ∀ t ∈ ts, upperCase t.tokenSymbol = sym) :
    ts.foldl (stepTx prices) [(sym, p)] = [(sym, applySeq p ts)] := by
  induction ts generalizing p with
  | nil => simp [applySeq]
  | cons t ts ih =>
    have ht := h t (List.mem_cons_self t ts)
    have hrest := fun u hu => h u (List.mem_cons_of_mem t hu)
    have hstep : stepTx prices [(sym, p)] t = [(sym, applyTx p t)] := by
      simp [stepTx, ht, getPos, setPos]
    rw [List.foldl_cons, hstep, ih _ hrest]
    simp [applySeq]

theorem foldTransactions_single (prices : List (String × ℚ)) (sym : String)
    (ts : List Transaction) (hne : ts ≠ [])
    (h : ∀ t ∈ ts, upperCase t.tokenSymbol = sym) :
    foldTransactions prices ts = [(sym, applySeq (initPosition sym prices) ts)] := by
  cases ts with
  | nil => cases hne rfl
  | cons t ts =>
    have ht := h t (List.mem_cons_self t ts)
    have hstep : stepTx prices [] t = [(sym, applyTx (initPosition sym prices) t)] := by
      simp [stepTx, ht, getPos, setPos]
    rw [foldTransactions, List.foldl_cons, hstep,
      foldl_stepTx_single prices sym ts _ (fun u hu => h u (List.mem_cons_of_mem t hu))]
    simp [applySeq]

theorem foldTransactions_append_single (prices : List (String × ℚ))
    (txs : List Transaction) (t : Transaction) :
    foldTransactions prices (txs ++ [t]) =
      stepTx prices (foldTransactions prices txs) t := by
  simp [foldTransactions, List.foldl_append]

theorem lookupPrice_not_mem (prices : List (String × ℚ)) (s : String)
    (h : s ∉ prices.map Prod.fst) : lookupPrice prices s = 0 := by
  induction prices with
  | nil => rfl
  | cons kv rest ih =>
    obtain ⟨k, v⟩ := kv
    simp only [List.map_cons, List.mem_cons, not_or] at h
    obtain ⟨h1, h2⟩ := h
    simp only [lookupPrice]
    rw [if_neg (fun hh => h1 hh.symm)]
    exact ih h2

theorem getPos_stepTx_self (prices : List (String × ℚ))
    (m : List (String × TokenPosition)) (t : Transaction) :
    getPos (stepTx prices m t) (upperCase t.tokenSymbol) =
      some (applyTx ((getPos m (upperCase t.tokenSymbol)).getD
        (initPosition (upperCase t.tokenSymbol) prices)) t) := by
  simp only [stepTx]
  rcases hg : getPos m (upperCase t.tokenSymbol) with _ | p <;>
    simp [hg, setPos_getPos_self]

theorem heldOf_eq (prices : List (String × ℚ)) (txs : List Transaction) (sym : String) :
    heldOf prices txs sym = ((getPos (foldTransactions prices txs) sym).getD
      (initPosition sym prices)).totalAmount := by
  rcases hg : getPos (foldTransactions prices txs) sym with _ | p <;>
    simp [heldOf, hg, initPosition]

theorem list_set_getElem_self {α : Type} {l : List α} {n : ℕ} {a : α}
    (h : l[n]? = some a) : l.set n a = l := by
  have hn : n < l.length := by
    by_contra hn
    rw [List.getElem?_eq_none (Nat.le_of_not_lt hn)] at h
    cases h
  apply List.ext_getElem?
  intro m
  rcases eq_or_ne n m with rfl | hnm
  · rw [List.getElem?_set_self hn]
    exact h.symm
  · rw [List.getElem?_set_ne hnm]

/-! ## Claim theorems -/

/-- **C1.** In the position resolver's fold, a buy of amount `a` at unit
price `p` (its `totalValue` being `a * p`, as the form computes it) updates
the symbol's position by `invested' = invested + a*p`, `held' = held + a`
and, the new held amount staying positive, `avgCost' = invested' / held'`;
consequently a nonempty all-buy single-symbol sequence folds to a position
whose average cost basis is exactly total spent divided by total held. -/
theorem buy_updates_position_and_avg_cost
    (pos : TokenPosition) (t : Transaction) (sym : String)
    (prices : List (String × ℚ)) (ts : List Transaction)
    (hty : t.type = TxType.buy) (htv : t.totalValue = t.amount * t.pricePerToken)
    (hheld : 0 < pos.totalAmount + t.amount)
    (hne : ts ≠ [])
    (hsymb : ∀ u ∈ ts, upperCase u.tokenSymbol = sym)
    (hbuys : ∀ u ∈ ts, u.type = TxType.buy ∧ 0 < u.amount ∧
      u.totalValue = u.amount * u.pricePerToken) :
    ((applyTx pos t).totalInvested = pos.totalInvested + t.amount * t.pricePerToken ∧
      (applyTx pos t).totalAmount = pos.totalAmount + t.amount ∧
      (applyTx pos t).avgCostBasis =
        (applyTx pos t).totalInvested / (applyTx pos t).totalAmount) ∧
    ∃ q, getPos (foldTransactions prices ts) sym = some q ∧
      q.totalInvested = sumSpent ts ∧ q.totalAmount = sumHeld ts ∧
      q.avgCostBasis = sumSpent ts / sumHeld ts := by
  obtain ⟨hI, hA, hAvg⟩ := applyTx_buy pos t hty
  constructor
  · refine ⟨by rw [hI, htv], hA, ?_⟩
    rw [hAvg, if_pos hheld, hI, hA]
  · have hfold := foldTransactions_single prices sym ts hne hsymb
    obtain ⟨h1, h2, h3⟩ :=
      applySeq_buys ts (initPosition sym prices) hbuys (by simp [initPosition])
    refine ⟨applySeq (initPosition sym prices) ts, ?_, ?_, ?_, ?_⟩
    · rw [hfold]; simp [getPos]
    · rw [h1]; simp [initPosition]
    · rw [h2]; simp [initPosition]
    · rw [h3 hne]; simp [initPosition]

/-- Witness for C1 at Scenario A: buy 0.5 BTC at 45000 then 0.5 BTC at
47000; the folded BTC position has invested 46000, held 1 and average
cost basis 46000 = 46000 / 1. -/
theorem buy_updates_position_and_avg_cost_witness :
    sumSpent [txA1, txA2] = 46000 ∧ sumHeld [txA1, txA2] = 1 ∧
    (∃ q, getPos (foldTransactions [("BTC", (45000 : ℚ))] [txA1, txA2]) "BTC" = some q ∧
      q.totalInvested = sumSpent [txA1, txA2] ∧ q.totalAmount = sumHeld [txA1, txA2] ∧
      q.avgCostBasis = sumSpent [txA1, txA2] / sumHeld [txA1, txA2]) :=
  ⟨by norm_num [sumSpent, txA1, txA2], by norm_num [sumHeld, txA1, txA2],
    (buy_updates_position_and_avg_cost (initPosition "BTC" [("BTC", 45000)]) txA1 "BTC"
      [("BTC", 45000)] [txA1, txA2] rfl (by norm_num [txA1])
      (by norm_num [initPosition, txA1]) (by simp)
      (by
        intro u hu
        simp only [List.mem_cons, List.not_mem_nil, or_false] at hu
        rcases hu with rfl | rfl <;> rfl)
      (by
        intro u hu
        simp only [List.mem_cons, List.not_mem_nil, or_false] at hu
        rcases hu with rfl | rfl <;>
          exact ⟨rfl, by norm_num [txA1, txA2], by norm_num [txA1, txA2]⟩)).2⟩

/-- **C2.** In the position resolver's fold, a sell of amount `a` updates
the symbol's position by `held' = held − a` and
`invested' = invested − a * avgCost` using the pre-sell average cost, and
leaves the average cost basis itself unchanged. -/
theorem sell_preserves_avg_cost (pos : TokenPosition) (t : Transaction)
    (hty : t.type = TxType.sell) :
    (applyTx pos t).totalAmount = pos.totalAmount - t.amount ∧
    (applyTx pos t).totalInvested = pos.totalInvested - t.amount * pos.avgCostBasis ∧
    (applyTx pos t).avgCostBasis = pos.avgCostBasis :=
  applyTx_sell pos t hty

/-- Witness for C2 at Scenario B: after Scenario A (held 1, invested
46000, avgCost 46000), selling 0.2 BTC yields held 0.8, invested 36800,
and the average cost basis still 46000. -/
theorem sell_preserves_avg_cost_witness :
    posA.totalAmount = 1 ∧ posA.totalInvested = 46000 ∧ posA.avgCostBasis = 46000 ∧
    (applyTx posA txB3).totalAmount = 4/5 ∧
    (applyTx posA txB3).totalInvested = 36800 ∧
    (applyTx posA txB3).avgCostBasis = 46000 := by
  obtain ⟨h1, h2, h3⟩ := sell_preserves_avg_cost posA txB3 rfl
  have hA : posA.totalAmount = 1 ∧ posA.totalInvested = 46000 ∧ posA.avgCostBasis = 46000 := by
    norm_num [posA, applySeq, applyTx, initPosition, lookupPrice, txA1, txA2]
  refine ⟨hA.1, hA.2.1, hA.2.2, ?_, ?_, ?_⟩
  · rw [h1, hA.1]; norm_num [txB3]
  · rw [h2, hA.2.1, hA.2.2]; norm_num [txB3]
  · rw [h3, hA.2.2]

/-- Counterexample to C3 as stated: a submission whose amount field is the
non-empty string `"-1"` parses to −1 ≤ 0, yet `addTransaction` appends it
to the ledger instead of rejecting it — the only guard in the source is
string emptiness, not a range check. -/
theorem addTransaction_accepts_nonpositive_amount :
    parseDecimal "-1" = some (-1) ∧
    ((-1 : ℚ) ≤ 0) ∧
    addTransaction [] ⟨"BTC", TxType.buy, "-1", "100"⟩ 7 =
      [⟨"7", "BTC", TxType.buy, -1, 100, -100, 7⟩] := by
  refine ⟨?_, by norm_num, ?_⟩
  · simp +decide [parseDecimal, List.takeWhile, List.dropWhile]
  · simp +decide [addTransaction, mkTransactionFromInput, parseDecimal, upperCase,
      List.takeWhile, List.dropWhile]

/-- **C3 (amended).** The transaction-entry operation rejects a submission
— leaving the ledger unchanged — exactly when one of the symbol, amount or
price input strings is empty; any submission with all three fields
non-empty is appended (so amount ≤ 0 or unit price < 0 values in non-empty
fields are accepted, not rejected). -/
theorem addTransaction_empty_field_guard (txs : List Transaction)
    (inp : NewTransactionInput) (now : ℕ) :
    (inp.tokenSymbol = "" ∨ inp.amount = "" ∨ inp.pricePerToken = "" →
      addTransaction txs inp now = txs) ∧
    (inp.tokenSymbol ≠ "" → inp.amount ≠ "" → inp.pricePerToken ≠ "" →
      addTransaction txs inp now = txs ++ [mkTransactionFromInput inp now]) := by
  constructor
  · intro h
    simp [addTransaction, h]
  · intro h1 h2 h3
    simp [addTransaction, h1, h2, h3]

/-- Witness for C3 (amended): an empty amount field is rejected, a filled
form is appended. -/
theorem addTransaction_empty_field_guard_witness :
    addTransaction [] ⟨"BTC", TxType.buy, "", "100"⟩ 3 = [] ∧
    addTransaction [] ⟨"BTC", TxType.buy, "2", "100"⟩ 3 =
      [] ++ [mkTransactionFromInput ⟨"BTC", TxType.buy, "2", "100"⟩ 3] :=
  ⟨(addTransaction_empty_field_guard [] _ 3).1 (Or.inr (Or.inl rfl)),
   (addTransaction_empty_field_guard [] _ 3).2 (by decide) (by decide) (by decide)⟩

/-- **C4.** When the snapshot history already has an entry for the
sampling date (at index `idx ≥ 1` in creation order), re-sampling with a
nonzero value recomputes that entry in place, and the previous value used
is the `portfolioValue` of the entry at `idx − 1` — the entry recorded
before today's first sample (two positions back counting the new sample),
whose date is not today — not today's own prior overwritten value. -/
theorem sample_existing_entry_prev_two_back
    (hist : List DailyPnL) (sb cv : ℚ) (today : String) (idx : ℕ)
    (hcv : cv ≠ 0)
    (hfind : hist.findIdx? (fun e => e.date == today) = some idx)
    (hidx : 1 ≤ idx)
    (hnz : ∀ e ∈ hist, e.portfolioValue ≠ 0) :
    ∃ prev, hist[idx - 1]? = some prev ∧ prev.date ≠ today ∧
      sampleDailyPnL hist sb cv today =
        hist.set idx (mkDailyEntry today cv prev.portfolioValue) := by
  obtain ⟨hlen, hpred, hprior⟩ := List.findIdx?_eq_some_iff_getElem.mp hfind
  obtain ⟨i, rfl⟩ : ∃ i, idx = i + 1 := ⟨idx - 1, (Nat.succ_pred_eq_of_pos hidx).symm⟩
  have hi : i < hist.length := Nat.lt_of_succ_lt hlen
  refine ⟨hist[i], ?_, ?_, ?_⟩
  · simp [List.getElem?_eq_getElem hi]
  · have := hprior i (Nat.lt_succ_self i)
    simpa using this
  · simp only [sampleDailyPnL, if_neg hcv, hfind]
    congr 2
    simp only [samplePrevValueExisting, List.getElem?_eq_getElem hi]
    rw [if_neg (hnz _ (List.getElem_mem hi))]

/-- Witness for C4: a two-entry history with today ("Mon") at index 1;
re-sampling uses the Sunday entry's value 80, not Monday's stored 90. -/
theorem sample_existing_entry_prev_two_back_witness :
    ∃ prev, [(⟨"Sun", 80, 4, 5⟩ : DailyPnL), ⟨"Mon", 90, 10, 25/2⟩][(1 : ℕ) - 1]? = some prev ∧
      prev.date ≠ "Mon" ∧
      sampleDailyPnL [⟨"Sun", 80, 4, 5⟩, ⟨"Mon", 90, 10, 25/2⟩] 7 100 "Mon" =
        [(⟨"Sun", 80, 4, 5⟩ : DailyPnL), ⟨"Mon", 90, 10, 25/2⟩].set 1
          (mkDailyEntry "Mon" 100 prev.portfolioValue) :=
  sample_existing_entry_prev_two_back
    [⟨"Sun", 80, 4, 5⟩, ⟨"Mon", 90, 10, 25/2⟩] 7 100 "Mon" 1
    (by norm_num) (by decide) (by decide)
    (by
      intro e he
      simp only [List.mem_cons, List.not_mem_nil, or_false] at he
      rcases he with rfl | rfl <;> norm_num)

/-- **C5.** An oversell — a sell whose amount exceeds the currently held
amount of its symbol — is not rejected by the position resolver: the fold
applies it arithmetically, driving the held amount negative, and the
resulting position is absent from the resolver's reported output only
because of the `held > 0` filter. -/
theorem oversell_applied_not_rejected (prices : List (String × ℚ))
    (txs : List Transaction) (t : Transaction)
    (hty : t.type = TxType.sell)
    (hover : heldOf prices txs (upperCase t.tokenSymbol) < t.amount) :
    ∃ q, getPos (foldTransactions prices (txs ++ [t])) (upperCase t.tokenSymbol) = some q ∧
      q.totalAmount = heldOf prices txs (upperCase t.tokenSymbol) - t.amount ∧
      q.totalAmount < 0 ∧
      upperCase t.tokenSymbol ∉
        (resolvePositions prices (txs ++ [t])).map TokenPosition.symbol := by
  set sym := upperCase t.tokenSymbol
  set pos0 := (getPos (foldTransactions prices txs) sym).getD (initPosition sym prices)
    with hpos0
  have hq : getPos (foldTransactions prices (txs ++ [t])) sym = some (applyTx pos0 t) := by
    rw [foldTransactions_append_single]
    exact getPos_stepTx_self prices _ t
  obtain ⟨hA, hI, hAvg⟩ := applyTx_sell pos0 t hty
  have hheld : pos0.totalAmount = heldOf prices txs sym := by
    rw [heldOf_eq prices txs sym]
  refine ⟨applyTx pos0 t, hq, ?_, ?_, ?_⟩
  · rw [hA, hheld]
  · rw [hA, hheld]
    linarith
  · intro hmem
    obtain ⟨q', hq', hpos'⟩ := (resolveSymbol_iff_aux prices (txs ++ [t]) sym).mp hmem
    rw [hq] at hq'
    injection hq' with h
    rw [← h, hA, hheld] at hpos'
    linarith

/-- Witness for C5: selling 1 ETH against an empty ledger (held 0) is
applied, leaves held −1, and ETH is absent from the resolved output. -/
theorem oversell_applied_not_rejected_witness :
    ∃ q, getPos (foldTransactions [] ([] ++ [txC2])) (upperCase txC2.tokenSymbol) = some q ∧
      q.totalAmount = heldOf [] [] (upperCase txC2.tokenSymbol) - txC2.amount ∧
      q.totalAmount < 0 ∧
      upperCase txC2.tokenSymbol ∉
        (resolvePositions [] ([] ++ [txC2])).map TokenPosition.symbol :=
  oversell_applied_not_rejected [] [] txC2 rfl
    (by norm_num [heldOf, foldTransactions, getPos, txC2])

/-- **C6.** The resolver's output reports exactly the symbols whose folded
held amount is strictly positive: every reported position has
`totalAmount > 0`, and a symbol appears in the output iff the fold gives
it a position with `totalAmount > 0` (so held ≤ 0, including exactly 0,
is excluded). -/
theorem resolvePositions_exactly_positive_held (prices : List (String × ℚ))
    (txs : List Transaction) :
    (∀ p ∈ resolvePositions prices txs, 0 < p.totalAmount) ∧
    (∀ sym, sym ∈ (resolvePositions prices txs).map TokenPosition.symbol ↔
      ∃ q, getPos (foldTransactions prices txs) sym = some q ∧ 0 < q.totalAmount) := by
  constructor
  · intro p hp
    exact ((mem_resolvePositions_iff prices txs p).mp hp).2
  · intro sym
    exact resolveSymbol_iff_aux prices txs sym

/-- Witness for C6 at Scenario C: buying 1 ETH then selling 1 ETH folds to
held = 0, and ETH is excluded from the resolved mapping. -/
theorem resolvePositions_exactly_positive_held_witness :
    "ETH" ∉ (resolvePositions [("ETH", (100 : ℚ))] [txC1, txC2]).map
      TokenPosition.symbol := by
  intro hmem
  obtain ⟨q, hq, hqpos⟩ :=
    ((resolvePositions_exactly_positive_held [("ETH", (100 : ℚ))] [txC1, txC2]).2 "ETH").mp hmem
  have hfold : getPos (foldTransactions [("ETH", (100 : ℚ))] [txC1, txC2]) "ETH" =
      some (applyTx (applyTx (initPosition "ETH" [("ETH", (100 : ℚ))]) txC1) txC2) := by
    simp +decide [foldTransactions, stepTx, getPos, setPos, upperCase, txC1, txC2]
  rw [hfold] at hq
  injection hq with h
  rw [← h] at hqpos
  norm_num [applyTx, initPosition, txC1, txC2, lookupPrice] at hqpos

/-- Counterexample to C7 as stated: sampling on a new date (the empty
history has no entry for it) with a total portfolio value of exactly 0
appends nothing — the zero-value guard returns the history unchanged, so
"sampling on a new date appends exactly one entry" fails. -/
theorem sample_new_date_zero_value_no_append :
    ([] : List DailyPnL).findIdx? (fun e => e.date == "Mon Jan 01 2024") = none ∧
    sampleDailyPnL [] 5 0 "Mon Jan 01 2024" = [] := by
  constructor
  · rfl
  · simp [sampleDailyPnL]

/-- **C7 (amended).** The snapshot history keeps at most one entry per
calendar-date key: sampling preserves distinctness of date keys; with a
nonzero value, sampling on a date that already has an entry overwrites
that entry in place (never appending a duplicate) and sampling on a new
date appends exactly one entry; with a zero value sampling is a no-op. -/
theorem sample_at_most_one_entry_per_date (hist : List DailyPnL) (sb cv : ℚ)
    (today : String) (hnd : (hist.map DailyPnL.date).Nodup) :
    ((sampleDailyPnL hist sb cv today).map DailyPnL.date).Nodup ∧
    (cv ≠ 0 → ∀ idx, hist.findIdx? (fun e => e.date == today) = some idx →
      sampleDailyPnL hist sb cv today =
        hist.set idx (mkDailyEntry today cv (samplePrevValueExisting hist sb idx))) ∧
    (cv ≠ 0 → hist.findIdx? (fun e => e.date == today) = none →
      sampleDailyPnL hist sb cv today =
        hist ++ [mkDailyEntry today cv (lastValueOrStart hist sb)]) ∧
    (cv = 0 → sampleDailyPnL hist sb cv today = hist) := by
  refine ⟨?_, ?_, ?_, ?_⟩
  · by_cases hcv : cv = 0
    · simpa [sampleDailyPnL, hcv] using hnd
    · rcases hfind : hist.findIdx? (fun e => e.date == today) with _ | idx
      · simp only [sampleDailyPnL, if_neg hcv, hfind]
        have htoday : today ∉ hist.map DailyPnL.date := by
          rw [List.findIdx?_eq_none_iff] at hfind
          intro hmem
          obtain ⟨e, he, hdate⟩ := List.mem_map.mp hmem
          have := hfind e he
          simp [hdate] at this
        rw [List.map_append]
        refine List.Nodup.append hnd (by simp) ?_
        intro x hx hx'
        simp [mkDailyEntry] at hx'
        subst hx'
        exact htoday hx
      · simp only [sampleDailyPnL, if_neg hcv, hfind]
        obtain ⟨hlen, hpred, _⟩ := List.findIdx?_eq_some_iff_getElem.mp hfind
        have hdate : hist[idx].date = today := by simpa using hpred
        have hset : (hist.set idx
            (mkDailyEntry today cv (samplePrevValueExisting hist sb idx))).map
              DailyPnL.date = hist.map DailyPnL.date := by
          rw [List.map_set]
          apply list_set_getElem_self
          simp [mkDailyEntry, hdate, List.getElem?_eq_getElem hlen]
        rw [hset]
        exact hnd
  · intro hcv idx hfind
    simp only [sampleDailyPnL, if_neg hcv, hfind]
  · intro hcv hfind
    simp only [sampleDailyPnL, if_neg hcv, hfind]
  · intro hcv
    simp [sampleDailyPnL, hcv]

/-- Witness for C7 (amended): re-sampling the one-entry history for
"Sun" with value 100 keeps date keys distinct, overwrites in place, and
the zero-value no-op holds. -/
theorem sample_at_most_one_entry_per_date_witness :
    ((sampleDailyPnL [⟨"Sun", 80, 4, 5⟩] 3 100 "Sun").map DailyPnL.date).Nodup ∧
    ((100 : ℚ) ≠ 0 → ∀ idx,
      [(⟨"Sun", 80, 4, 5⟩ : DailyPnL)].findIdx? (fun e => e.date == "Sun") = some idx →
      sampleDailyPnL [⟨"Sun", 80, 4, 5⟩] 3 100 "Sun" =
        [(⟨"Sun", 80, 4, 5⟩ : DailyPnL)].set idx
          (mkDailyEntry "Sun" 100 (samplePrevValueExisting [⟨"Sun", 80, 4, 5⟩] 3 idx))) ∧
    ((100 : ℚ) ≠ 0 →
      [(⟨"Sun", 80, 4, 5⟩ : DailyPnL)].findIdx? (fun e => e.date == "Sun") = none →
      sampleDailyPnL [⟨"Sun", 80, 4, 5⟩] 3 100 "Sun" =
        [(⟨"Sun", 80, 4, 5⟩ : DailyPnL)] ++
          [mkDailyEntry "Sun" 100 (lastValueOrStart [⟨"Sun", 80, 4, 5⟩] 3)]) ∧
    ((100 : ℚ) = 0 → sampleDailyPnL [⟨"Sun", 80, 4, 5⟩] 3 100 "Sun" =
      [(⟨"Sun", 80, 4, 5⟩ : DailyPnL)]) :=
  sample_at_most_one_entry_per_date [⟨"Sun", 80, 4, 5⟩] 3 100 "Sun" (by simp)

/-- **C8.** A sample that creates a new entry (no entry for the sampling
date exists and the value is nonzero) appends one entry whose previous
value is the last existing entry's `portfolioValue`, or the start balance
for an empty history; the entry records `dailyChange = value − previous`
and a percentage of `dailyChange/previous*100` when `previous > 0` and
exactly 0 otherwise — in particular 0, not infinite, when previous = 0. -/
theorem sample_new_entry_previous_value (hist : List DailyPnL) (sb cv : ℚ)
    (today : String) (hcv : cv ≠ 0)
    (hnone : hist.findIdx? (fun e => e.date == today) = none) :
    sampleDailyPnL hist sb cv today =
      hist ++ [mkDailyEntry today cv (lastValueOrStart hist sb)] ∧
    (hist = [] → lastValueOrStart hist sb = sb) ∧
    (∀ e, hist.getLast? = some e → lastValueOrStart hist sb = e.portfolioValue) ∧
    (∀ pv, (mkDailyEntry today cv pv).dailyChange = cv - pv) ∧
    (∀ pv, 0 < pv →
      (mkDailyEntry today cv pv).dailyChangePercentage = (cv - pv) / pv * 100) ∧
    (∀ pv, ¬ 0 < pv → (mkDailyEntry today cv pv).dailyChangePercentage = 0) := by
  refine ⟨?_, ?_, ?_, ?_, ?_, ?_⟩
  · simp only [sampleDailyPnL, if_neg hcv, hnone]
  · intro h
    subst h
    rfl
  · intro e he
    simp [lastValueOrStart, he]
  · intro pv
    simp [mkDailyEntry]
  · intro pv h
    simp [mkDailyEntry, h]
  · intro pv h
    simp [mkDailyEntry, h]

/-- Witness for C8 at Scenario D: empty history and start balance 0 give
previous value 0, and the appended entry's percentage is exactly 0. -/
theorem sample_new_entry_previous_value_witness :
    sampleDailyPnL [] 0 100 "Mon" = [] ++ [mkDailyEntry "Mon" 100 (lastValueOrStart [] 0)] ∧
    lastValueOrStart [] 0 = 0 ∧
    (mkDailyEntry "Mon" 100 0).dailyChangePercentage = 0 := by
  obtain ⟨h1, h2, _, _, _, h6⟩ := sample_new_entry_previous_value [] 0 100 "Mon" (by norm_num) rfl
  exact ⟨h1, h2 rfl, h6 0 (by norm_num)⟩

/-- **C9.** Every position the resolver reports satisfies:
`currentPrice` is the price-map entry for its symbol (0 when the symbol is
absent), `currentValue = held * currentPrice`,
`pnl = currentValue − invested`, and `pnlPercentage` is
`pnl/invested*100` when `invested > 0` and exactly 0 otherwise. -/
theorem resolvePositions_derived_fields (prices : List (String × ℚ))
    (txs : List Transaction) (p : TokenPosition)
    (hp : p ∈ resolvePositions prices txs) :
    p.currentPrice = lookupPrice prices p.symbol ∧
    (p.symbol ∉ prices.map Prod.fst → p.currentPrice = 0) ∧
    p.currentValue = p.totalAmount * p.currentPrice ∧
    p.pnl = p.currentValue - p.totalInvested ∧
    p.pnlPercentage =
      (if 0 < p.totalInvested then p.pnl / p.totalInvested * 100 else 0) := by
  obtain ⟨⟨kq, hkq, rfl⟩, hpos⟩ := (mem_resolvePositions_iff prices txs p).mp hp
  refine ⟨?_, ?_, ?_, ?_, ?_⟩
  · simp [finalizePosition]
  · intro h
    simp only [finalizePosition] at h ⊢
    exact lookupPrice_not_mem prices _ h
  · simp [finalizePosition]
  · simp [finalizePosition]
  · simp [finalizePosition]

/-- Witness for C9: one buy of 1 ETH at 100 with an empty price map; the
reported position has current price 0 (missing symbol), current value 0,
pnl −100 and percentage −100 — no division-by-zero artefacts. -/
theorem resolvePositions_derived_fields_witness :
    posE.currentPrice = lookupPrice [] posE.symbol ∧
    (posE.symbol ∉ ([] : List (String × ℚ)).map Prod.fst → posE.currentPrice = 0) ∧
    posE.currentValue = posE.totalAmount * posE.currentPrice ∧
    posE.pnl = posE.currentValue - posE.totalInvested ∧
    posE.pnlPercentage =
      (if 0 < posE.totalInvested then posE.pnl / posE.totalInvested * 100 else 0) :=
  resolvePositions_derived_fields [] [txC1] posE
    (by
      have : resolvePositions [] [txC1] = [posE] := by
        simp +decide [resolvePositions, foldTransactions, stepTx, getPos, setPos,
          applyTx, initPosition, finalizePosition, lookupPrice, upperCase, txC1, posE]
      rw [this]
      simp)

/-- **C10.** When the total portfolio value computed from the resolved
positions is exactly 0, the daily sampling operation leaves the snapshot
history completely unchanged — no entry is created or updated, whatever
the history contains. -/
theorem sample_zero_portfolio_noop (positions : List TokenPosition)
    (hist : List DailyPnL) (sb : ℚ) (today : String)
    (h : getTotalPortfolioValue positions = 0) :
    sampleDailyPnL hist sb (getTotalPortfolioValue positions) today = hist := by
  rw [h]
  simp [sampleDailyPnL]

/-- Witness for C10: with no positions the total value is 0 and sampling
leaves a history that already has an entry for today untouched. -/
theorem sample_zero_portfolio_noop_witness :
    sampleDailyPnL [⟨"Sun", 80, 4, 5⟩] 3 (getTotalPortfolioValue []) "Sun" =
      [(⟨"Sun", 80, 4, 5⟩ : DailyPnL)] :=
  sample_zero_portfolio_noop [] [⟨"Sun", 80, 4, 5⟩] 3 "Sun" rfl

end PnL
